import Mathlib

/-!
Verification development for the speak-mcp repository (a TypeScript MCP server
that provisions the piper text-to-speech engine).  The definitions below are a
shallow embedding of the functions in `src/tts.ts` and of the `PiperManager`
class (`src/piper-manager.ts`, supplied unnamed); external Node builtins
(`https.get`, `fs`, `JSON.parse`, `new URL`, `String.prototype.replace`,
`parseInt`, `Array.prototype.sort`) are modelled explicitly where their
behaviour matters, with a comment citing the semantics relied upon.
-/

namespace SpeakMcp

/-! ## Character-list utilities

Models of the JavaScript string builtins used by the source:
`String.prototype.includes`, `String.prototype.replace` (string pattern:
first occurrence only), and `parseInt(s, 10)`.  Strings are handled through
their character lists so every definition is structurally recursive and
kernel-computable. -/

/-- Model of a prefix test on character lists: `leadsWith pat cs` is true iff
`cs` starts with `pat`. -/
def leadsWith : List Char → List Char → Bool
  | [], _ => true
  | _ :: _, [] => false
  | a :: as, b :: bs => a == b && leadsWith as bs

/-- Model of JavaScript `hay.includes(needle)` on character lists:
`hasSubL needle hay` is true iff `needle` occurs contiguously inside `hay`. -/
def hasSubL (needle : List Char) : List Char → Bool
  | [] => needle.isEmpty
  | c :: rest => leadsWith needle (c :: rest) || hasSubL needle rest

/-- Model of JavaScript `hay.includes(needle)` at the string level. -/
def strIncludes (hay needle : String) : Bool :=
  hasSubL needle.toList hay.toList

/-- Model of JavaScript `s.startsWith(pre)` (kernel-computable, unlike the
byte-position-based builtin of the Lean core library). -/
def startsWithJS (s pre : String) : Bool := leadsWith pre.toList s.toList

/-- Model of JavaScript `s.endsWith(suf)`. -/
def endsWithJS (s suf : String) : Bool := leadsWith suf.toList.reverse s.toList.reverse

/-- Model of JavaScript `toLowerCase` on one character.  Only the ASCII range
is mapped; every identifier, key and display name in this development is
ASCII, where JS and ASCII lowercasing agree. -/
def charToLowerJS (c : Char) : Char :=
  if 65 ≤ c.toNat ∧ c.toNat ≤ 90 then Char.ofNat (c.toNat + 32) else c

/-- Model of JavaScript `s.toLowerCase()`. -/
def toLowerJS (s : String) : String := String.mk (s.toList.map charToLowerJS)

/-- Model of JavaScript `s.replace(pat, rep)` with a string pattern: only the
first occurrence of `pat` is replaced; if `pat` does not occur, the input is
returned unchanged. -/
def replaceFirstAux (pat rep : List Char) : List Char → List Char
  | [] => if pat.isEmpty then rep else []
  | c :: rest =>
    if leadsWith pat (c :: rest) then rep ++ (c :: rest).drop pat.length
    else c :: replaceFirstAux pat rep rest

/-- String-level wrapper of `replaceFirstAux`, modelling the source's
`modelPath.replace(".onnx", ".onnx.json")` calls. -/
def replaceFirst (s pat rep : String) : String :=
  String.mk (replaceFirstAux pat.toList rep.toList s.toList)

/-- The whitespace characters that `parseInt` skips (the common subset used
here; the identifiers in this development never carry leading whitespace). -/
def isWhitespaceJS (c : Char) : Bool :=
  c == ' ' || c == '\t' || c == '\n' || c == '\r'

/-- Numeric value of a run of decimal digit characters, accumulated left to
right exactly as `parseInt` does. -/
def digitsVal (l : List Char) : Nat :=
  l.foldl (fun acc c => acc * 10 + (c.toNat - 48)) 0

/-- Model of JavaScript `parseInt(s, 10)`: skip leading whitespace, read an
optional sign, then the maximal run of decimal digits; `none` models `NaN`
(no digits).  Trailing non-digit text is ignored, exactly as in JS.  (JS
numbers lose integer precision above 2^53; the identifiers and catalog sizes
relevant here are far below that, so exact `Int` arithmetic is faithful.) -/
def parseIntJS (s : String) : Option Int :=
  match s.toList.dropWhile isWhitespaceJS with
  | [] => none
  | c :: rest =>
    let signBody : Int × List Char :=
      if c = '-' then (-1, rest) else if c = '+' then (1, rest) else (1, c :: rest)
    let digits := signBody.2.takeWhile Char.isDigit
    if digits.isEmpty then none
    else some (signBody.1 * (digitsVal digits : Nat))

/-- The decimal digit character for `d < 10`. -/
def digitChar (d : Nat) : Char := Char.ofNat (48 + d)

/-- Decimal digit list of a natural number, fuel-recursive so that it is
structurally recursive and kernel-computable; `fuel > n` is always enough. -/
def natDigitsAux : Nat → Nat → List Char
  | 0, _ => []
  | fuel + 1, n =>
    if n < 10 then [digitChar n]
    else natDigitsAux fuel (n / 10) ++ [digitChar (n % 10)]

/-- The decimal string of a natural number, the `str(n)` of the claims. -/
def strNat (n : Nat) : String := String.mk (natDigitsAux (n + 1) n)

/-! ## `downloadFile` (src/tts.ts lines 101-160)

The downloader opens a write stream on `destPath` immediately (so the file
exists from the start), then issues `https.get` requests, following
redirects.  The network is modelled as an oracle from the request URL to the
observable response event.  Failure propagation and file cleanup are exactly
as in the source:
* `redirectCount > 5` at entry of `request` rejects with `TooManyRedirects`
  before contacting the server — modelled by `hops = 0`, where
  `hops = 6 - redirectCount` (initial call: `redirectCount = 0`, `hops = 6`);
* a 301/302/307/308 response with a `location` header recurses on the next
  URL (relative locations resolved against the current URL);
* a redirect without `location` rejects; a non-200 terminal status rejects;
  a 200 response resolves — none of these three paths unlinks `destPath`;
* only the request `error` event handler unlinks `destPath`. -/

/-- One observable answer of the network to `https.get(url)`. -/
inductive FetchEvent where
  /-- An HTTP response with its status code and optional `location` header. -/
  | response (statusCode : Nat) (location : Option String)
  /-- The request emitted an `error` event (network failure). -/
  | netErr
deriving DecidableEq

/-- Failure modes of `downloadFile`, one per `reject` site in the source. -/
inductive DownloadError where
  | tooManyRedirects
  | redirectNoLocation
  | httpFailure (status : Nat)
  | networkError
deriving DecidableEq

/-- Outcome of a `downloadFile` call: its settled promise and whether the
destination path still exists afterwards. -/
structure DownloadOutcome where
  result : Except DownloadError Unit
  destExists : Bool

/-- The source's redirect-status test (`statusCode === 301 || 302 || 307 || 308`). -/
def isRedirectStatus (code : Nat) : Bool :=
  code == 301 || code == 302 || code == 307 || code == 308

/-- Modelled from the spec: the WHATWG `new URL(location, base).href` builtin
used by `downloadFile` (the builtin itself is not repository code).  The spec
says relative locations are resolved against the current URL; this model
handles the two relative-reference forms an HTTP redirect can carry: a
path-absolute location (starting with "/") is appended to the base URL's
origin, any other relative location is appended to the base URL's directory
(everything up to and including the last "/"). -/
def urlResolve (location base : String) : String :=
  if startsWithJS location "/" then String.mk (urlOriginChars base.toList) ++ location
  else
    String.mk ((base.toList.reverse.dropWhile (fun c => c ≠ '/')).reverse) ++ location
where
  /-- The origin of a URL, as characters: everything up to (not including)
  the first "/" after the "://" scheme separator. -/
  urlOriginChars : List Char → List Char
    | [] => []
    | c :: rest =>
      if leadsWith [':', '/', '/'] (c :: rest) then
        ':' :: '/' :: '/' :: (rest.drop 2).takeWhile (fun x => x ≠ '/')
      else c :: urlOriginChars rest

/-- The source's next-URL computation on a redirect:
`location.startsWith('http') ? location : new URL(location, redirectUrl).href`. -/
def nextUrl (location currentUrl : String) : String :=
  if startsWithJS location "http" then location else urlResolve location currentUrl

/-- The recursive `request` closure of `downloadFile`.  `hops` counts the
remaining redirect budget: `hops = 6 - redirectCount`, so the source's entry
guard `redirectCount > 5` is exactly `hops = 0`. -/
def requestAux (server : String → FetchEvent) : Nat → String → DownloadOutcome
  | 0, _ => ⟨.error .tooManyRedirects, true⟩
  | hops + 1, url =>
    match server url with
    | .netErr => ⟨.error .networkError, false⟩
    | .response code loc =>
      if isRedirectStatus code then
        match loc with
        | some location => requestAux server hops (nextUrl location url)
        | none => ⟨.error .redirectNoLocation, true⟩
      else if code ≠ 200 then ⟨.error (.httpFailure code), true⟩
      else ⟨.ok (), true⟩

/-- `downloadFile(url, destPath)`: opens the destination write stream and runs
`request(url, 0)` — that is, `requestAux` with a budget of 6 hops. -/
def downloadFile (server : String → FetchEvent) (url : String) : DownloadOutcome :=
  requestAux server 6 url

/-! ## Voice catalog (src/tts.ts lines 22-32 and 230-275) -/

/-- The `language` object of a catalog entry (`VoiceInfo.language`). -/
structure Language where
  code : String
  name_english : String
  country_english : String
deriving DecidableEq

/-- One value of the `files` record of a catalog entry. -/
structure FileInfo where
  size_bytes : Nat
  md5_digest : String
deriving DecidableEq

/-- The `VoiceInfo` interface of src/tts.ts.  The `files` record is kept as an
association list in its JS enumeration order. -/
structure VoiceInfo where
  key : String
  name : String
  language : Language
  quality : String
  files : List (String × FileInfo)
deriving DecidableEq

/-- One raw catalog-document entry value, before defaulting: each field may be
absent (or, for the strings, present but falsy, see `jsOrString`). -/
structure RawVoiceData where
  name : Option String := none
  language : Option Language := none
  quality : Option String := none
  files : Option (List (String × FileInfo)) := none
deriving DecidableEq

/-- JavaScript `x || d` for a possibly-absent string `x`: the empty string is
falsy, so it also falls back to the default. -/
def jsOrString (x : Option String) (d : String) : String :=
  match x with
  | some s => if s.isEmpty then d else s
  | none => d

/-- The default `language` object used by `fetchAvailableVoices`. -/
def defaultLanguage : Language :=
  { code := "en_US", name_english := "English", country_english := "United States" }

/-- Construction of one `VoiceInfo` from a raw catalog entry, with the
source's defaulting (`voiceData.name || key`, etc.; `language` and `files`
are objects and hence only falsy when absent). -/
def mkVoiceInfo (key : String) (raw : RawVoiceData) : VoiceInfo :=
  { key := key
    name := jsOrString raw.name key
    language := raw.language.getD defaultLanguage
    quality := jsOrString raw.quality "medium"
    files := raw.files.getD [] }

/-- The quality ranking used both by the catalog sort and by the fuzzy-match
tie break: `qualityOrder[q] || 0` in the source. -/
def qualityOrder (q : String) : Nat :=
  if q == "high" then 3 else if q == "medium" then 2 else if q == "low" then 1 else 0

/-- Stable insertion of `v` into a list sorted descending by `qualityOrder`:
`v` goes in front of the first element whose rank is at most its own, so
everything before `v` in the output has strictly greater rank. -/
def insertDesc (v : VoiceInfo) : List VoiceInfo → List VoiceInfo
  | [] => [v]
  | w :: ws =>
    if qualityOrder w.quality ≤ qualityOrder v.quality then v :: w :: ws
    else w :: insertDesc v ws

/-- Model of the source's `voices.sort((a, b) => (qualityOrder[b.quality] || 0)
- (qualityOrder[a.quality] || 0))`.  JavaScript `Array.prototype.sort` is
required to be stable, and a stable sort under a consistent comparator is
extensionally unique, so this stable insertion sort computes exactly the list
the source produces. -/
def sortDesc : List VoiceInfo → List VoiceInfo
  | [] => []
  | v :: vs => insertDesc v (sortDesc vs)

/-- The entry-to-voice pass of `fetchAvailableVoices`: keep the entries whose
key starts with "en_US-", in document order, defaulting missing fields.  The
input list models `Object.entries(voicesData)` of the parsed JSON document. -/
def parseVoices (entries : List (String × RawVoiceData)) : List VoiceInfo :=
  entries.filterMap fun kv =>
    if startsWithJS kv.1 "en_US-" then some (mkVoiceInfo kv.1 kv.2) else none

/-- `fetchAvailableVoices` (success path, after the HTTP fetch and
`JSON.parse` succeeded): filter to the supported locale, then sort descending
by quality rank. -/
def fetchAvailableVoices (entries : List (String × RawVoiceData)) : List VoiceInfo :=
  sortDesc (parseVoices entries)

/-! ## `PiperManager.matchVoice` (piper-manager source, lines 254-294) -/

/-- The substring stage's candidate list: every voice whose key or name
contains the identifier case-insensitively
(`v.key.toLowerCase().includes(identifier.toLowerCase()) || ...`). -/
def substrMatches (identifier : String) (voices : List VoiceInfo) : List VoiceInfo :=
  voices.filter fun v =>
    strIncludes (toLowerJS v.key) (toLowerJS identifier) ||
    strIncludes (toLowerJS v.name) (toLowerJS identifier)

/-- Stages two to four of `matchVoice`: exact key, key with the "en_US-"
locale marker prepended, then the case-insensitive substring stage with its
quality sort and first-element pick. -/
def matchVoiceKeyStages (identifier : String) (voices : List VoiceInfo) : Option VoiceInfo :=
  match voices.find? (fun v => v.key == identifier) with
  | some v => some v
  | none =>
    match voices.find? (fun v => v.key == "en_US-" ++ identifier) with
    | some v => some v
    | none =>
      let partialMatches := substrMatches identifier voices
      if partialMatches.isEmpty then none
      else (sortDesc partialMatches).head?

/-- `PiperManager.matchVoice`: empty catalog fails; then the numeric-index
stage (`parseInt(identifier, 10)`, 1-based, in-range) returns directly;
otherwise the key and substring stages run.  The in-range `voices.get?` is
always `some`, matching the source's direct `voices[numericIndex - 1]`. -/
def matchVoice (identifier : String) (voices : List VoiceInfo) : Option VoiceInfo :=
  if voices.isEmpty then none
  else
    match parseIntJS identifier with
    | some n =>
      if 1 ≤ n ∧ n ≤ (voices.length : Int) then voices.get? (n - 1).toNat
      else matchVoiceKeyStages identifier voices
    | none => matchVoiceKeyStages identifier voices

/-! ## Persistent configuration (piper-manager source, lines 19-35 and 75-87) -/

/-- The `selectedVoice` record of the persisted `Config`. -/
structure SelectedVoice where
  key : String
  name : String
  languageCode : String
  quality : String
  modelPath : String
  configPath : String
deriving DecidableEq

/-- The `piperBinary` record of the persisted `Config`. -/
structure PiperBinary where
  path : String
  version : String
  platform : String
  arch : String
deriving DecidableEq

/-- The persisted `Config` interface.  The current schema version written by
every default-construction site in the source is "1.0.0". -/
structure Config where
  version : String
  selectedVoice : Option SelectedVoice := none
  piperBinary : Option PiperBinary := none
deriving DecidableEq

/-- The default state every failure path of `loadConfig` falls back to. -/
def defaultConfig : Config := { version := "1.0.0" }

/-- The observable outcome of `fs.readFile` followed by `JSON.parse` on the
backing file — the two operations `loadConfig` wraps in its `try`.  A missing
or unreadable file throws in `readFile`; syntactically invalid JSON throws in
`JSON.parse`; otherwise a `Config`-shaped value is produced. -/
inductive ConfigReadOutcome where
  | readFailed
  | parseFailed
  | parsed (cfg : Config)
deriving DecidableEq

/-- `PiperManager.loadConfig`: any read or parse failure is caught and
replaced by the default state; it never propagates an error (it is total). -/
def loadConfig : ConfigReadOutcome → Config
  | .readFailed => defaultConfig
  | .parseFailed => defaultConfig
  | .parsed cfg => cfg

/-! ## `PiperManager.changeVoice` (piper-manager source, lines 354-417) -/

/-- The `selectedVoice` record built by `ensureVoiceSelected` (lines 196-203)
and `changeVoice` (lines 400-407); both construct it with the same fields,
deriving `configPath` via `modelPath.replace('.onnx', '.onnx.json')` — a JS
first-occurrence string replacement. -/
def mkSelectedVoice (v : VoiceInfo) (modelPath : String) : SelectedVoice :=
  { key := v.key
    name := v.name
    languageCode := v.language.code
    quality := v.quality
    modelPath := modelPath
    configPath := replaceFirst modelPath ".onnx" ".onnx.json" }

/-- The mutable fields of a `PiperManager` relevant to voice changes,
together with `persistedConfig`, the `Config` currently stored in the backing
file (`none` when the file has never been written). -/
structure ManagerState where
  config : Option Config
  persistedConfig : Option Config
  voiceModelPath : Option String
  isInitialized : Bool
  voicesDir : String
deriving DecidableEq

/-- The tail of `changeVoice` after a model path has been determined: set
`this.config.selectedVoice`, set `this.voiceModelPath`, then `saveConfig()`
(which flushes the in-memory config to the backing file), and return the
confirmation message.  The human-readable size suffix of the real message is
elided (floating-point rendering; no claim concerns the message text). -/
def applyVoiceSelection (st : ManagerState) (v : VoiceInfo) (modelPath : String) :
    Except String String × ManagerState :=
  let cfg := st.config.getD { version := "1.0.0" }
  let cfg2 := { cfg with selectedVoice := some (mkSelectedVoice v modelPath) }
  (Except.ok ("Voice changed successfully to: " ++ v.name),
   { st with config := some cfg2, voiceModelPath := some modelPath,
             persistedConfig := some cfg2 })

/-- `PiperManager.changeVoice(voiceIdentifier)`.  The I/O collaborators are
passed as oracles: `voices` is the `fetchAvailableVoices()` result,
`isDownloaded` the `checkVoiceDownloaded` answer, `downloadResult` the
`downloadVoiceModel` outcome (its model path on success), and `dirFiles` the
`fs.readdir(voiceDir)` listing used on the already-downloaded branch.  Every
`throw` of the source is an `Except.error` here, returned together with the
manager state at that moment: no field is mutated and nothing is flushed
before a throw, so all error paths return `st` unchanged. -/
def changeVoice (st : ManagerState) (voiceIdentifier : String) (voices : List VoiceInfo)
    (isDownloaded : Bool) (downloadResult : Except String String)
    (dirFiles : List String) : Except String String × ManagerState :=
  if !st.isInitialized then (Except.error "PiperManager not initialized", st)
  else
    match matchVoice voiceIdentifier voices with
    | none =>
      (Except.error ("Voice " ++ voiceIdentifier ++
        " not found. Use the list_voices tool to see available voices."), st)
    | some selectedVoice =>
      if !isDownloaded then
        match downloadResult with
        | .error msg =>
          (Except.error ("Failed to download voice " ++ selectedVoice.name ++ ": " ++ msg), st)
        | .ok modelPath => applyVoiceSelection st selectedVoice modelPath
      else
        match dirFiles.find? (fun f => endsWithJS f ".onnx") with
        | none => (Except.error ("Voice model file not found for " ++ selectedVoice.key), st)
        | some onnxFile =>
          applyVoiceSelection st selectedVoice
            (st.voicesDir ++ "/" ++ selectedVoice.key ++ "/" ++ onnxFile)

/-! ## Properties of the stable quality sort -/

/-- The maximal quality rank occurring in a list (0 for the empty list). -/
def maxQual (l : List VoiceInfo) : Nat :=
  l.foldr (fun v m => max (qualityOrder v.quality) m) 0

/-- The first element of the list attaining the maximal quality rank: the
descriptor the substring stage is specified to pick (highest tier, ties
broken by original order). -/
def firstMax (l : List VoiceInfo) : Option VoiceInfo :=
  l.find? fun v => qualityOrder v.quality == maxQual l

lemma maxQual_cons (v : VoiceInfo) (vs : List VoiceInfo) :
    maxQual (v :: vs) = max (qualityOrder v.quality) (maxQual vs) := rfl

lemma mem_insertDesc {x v : VoiceInfo} :
    ∀ {l : List VoiceInfo}, x ∈ insertDesc v l ↔ x = v ∨ x ∈ l := by
  intro l
  induction l with
  | nil => simp [insertDesc]
  | cons w ws ih =>
    by_cases h : qualityOrder w.quality ≤ qualityOrder v.quality
    · simp [insertDesc, h]
    · simp only [insertDesc, if_neg h, List.mem_cons, ih]
      tauto

/-- Inserting preserves descending sortedness by quality rank. -/
lemma pairwise_insertDesc {v : VoiceInfo} {l : List VoiceInfo}
    (h : l.Pairwise (fun a b => qualityOrder b.quality ≤ qualityOrder a.quality)) :
    (insertDesc v l).Pairwise (fun a b => qualityOrder b.quality ≤ qualityOrder a.quality) := by
  induction l with
  | nil => simp [insertDesc]
  | cons w ws ih =>
    rcases List.pairwise_cons.mp h with ⟨hw, hws⟩
    by_cases hc : qualityOrder w.quality ≤ qualityOrder v.quality
    · rw [show insertDesc v (w :: ws) = v :: w :: ws from by rw [insertDesc, if_pos hc]]
      refine List.pairwise_cons.mpr ⟨?_, h⟩
      intro x hx
      rcases List.mem_cons.mp hx with rfl | hx
      · exact hc
      · exact le_trans (hw x hx) hc
    · rw [show insertDesc v (w :: ws) = w :: insertDesc v ws from by rw [insertDesc, if_neg hc]]
      refine List.pairwise_cons.mpr ⟨?_, ih hws⟩
      intro x hx
      rcases mem_insertDesc.mp hx with rfl | hx
      · exact le_of_lt (lt_of_not_le hc)
      · exact hw x hx

/-- The stable sort is sorted non-increasing in quality rank. -/
lemma pairwise_sortDesc (l : List VoiceInfo) :
    (sortDesc l).Pairwise (fun a b => qualityOrder b.quality ≤ qualityOrder a.quality) := by
  induction l with
  | nil => simp [sortDesc]
  | cons v vs ih => exact pairwise_insertDesc ih

/-- Stability of the insertion step, expressed per quality-rank class: the
elements of any fixed rank `r` keep their relative order, with `v` in front
exactly when it has rank `r` (everything it jumps over has strictly greater
rank). -/
lemma filter_insertDesc (v : VoiceInfo) (r : Nat) :
    ∀ l : List VoiceInfo,
      (insertDesc v l).filter (fun x => qualityOrder x.quality == r) =
        (if qualityOrder v.quality = r
         then v :: l.filter (fun x => qualityOrder x.quality == r)
         else l.filter (fun x => qualityOrder x.quality == r)) := by
  intro l
  induction l with
  | nil =>
    by_cases hv : qualityOrder v.quality = r <;>
      simp [insertDesc, List.filter_cons, hv]
  | cons w ws ih =>
    by_cases hc : qualityOrder w.quality ≤ qualityOrder v.quality
    · rw [show insertDesc v (w :: ws) = v :: w :: ws from by rw [insertDesc, if_pos hc]]
      by_cases hv : qualityOrder v.quality = r <;>
        simp [List.filter_cons, hv]
    · rw [show insertDesc v (w :: ws) = w :: insertDesc v ws from by rw [insertDesc, if_neg hc]]
      have hlt : qualityOrder v.quality < qualityOrder w.quality := lt_of_not_le hc
      by_cases hv : qualityOrder v.quality = r
      · have hwr : ¬ qualityOrder w.quality = r := by omega
        simp [List.filter_cons, hv, hwr, ih]
      · by_cases hwr : qualityOrder w.quality = r <;>
          simp [List.filter_cons, hv, hwr, ih]

/-- Stability of the whole sort: restricted to any one quality-rank class the
sorted list equals the input list. -/
lemma filter_sortDesc (r : Nat) (l : List VoiceInfo) :
    (sortDesc l).filter (fun x => qualityOrder x.quality == r) =
      l.filter (fun x => qualityOrder x.quality == r) := by
  induction l with
  | nil => rfl
  | cons v vs ih =>
    by_cases hv : qualityOrder v.quality = r
    · simp [sortDesc, filter_insertDesc, hv, List.filter_cons, ih]
    · simp [sortDesc, filter_insertDesc, hv, List.filter_cons, ih]

lemma insertDesc_ne_nil (v : VoiceInfo) (l : List VoiceInfo) : insertDesc v l ≠ [] := by
  cases l with
  | nil => simp [insertDesc]
  | cons w ws =>
    by_cases hc : qualityOrder w.quality ≤ qualityOrder v.quality <;>
      simp [insertDesc, hc]

lemma sortDesc_eq_nil_iff {l : List VoiceInfo} : sortDesc l = [] ↔ l = [] := by
  cases l with
  | nil => simp [sortDesc]
  | cons v vs =>
    simp only [sortDesc]
    exact ⟨fun h => absurd h (insertDesc_ne_nil v (sortDesc vs)), fun h => by simp at h⟩

lemma head?_insertDesc (v w : VoiceInfo) (ws : List VoiceInfo) :
    (insertDesc v (w :: ws)).head? =
      some (if qualityOrder w.quality ≤ qualityOrder v.quality then v else w) := by
  by_cases hc : qualityOrder w.quality ≤ qualityOrder v.quality <;> simp [insertDesc, hc]

/-- The head of the stable descending sort is the first element of the input
attaining the maximal quality rank — the source's
`partialMatches.sort(...)[0]` is exactly the specified pick. -/
lemma head?_sortDesc : ∀ l : List VoiceInfo, (sortDesc l).head? = firstMax l := by
  intro l
  induction l with
  | nil => rfl
  | cons v vs ih =>
    rcases hvs : sortDesc vs with _ | ⟨w, ws⟩
    · have hnil : vs = [] := sortDesc_eq_nil_iff.mp hvs
      subst hnil
      simp [sortDesc, insertDesc, firstMax, maxQual]
    · rw [hvs] at ih
      have hfm : vs.find? (fun x => qualityOrder x.quality == maxQual vs) = some w := by
        have h := ih.symm
        simpa [firstMax] using h
      have hwq : qualityOrder w.quality = maxQual vs := by
        have := List.find?_some hfm
        simpa using this
      simp only [sortDesc, hvs, head?_insertDesc]
      by_cases hc : qualityOrder w.quality ≤ qualityOrder v.quality
      · have hmax : maxQual (v :: vs) = qualityOrder v.quality := by
          rw [maxQual_cons]; omega
        have hp : (qualityOrder v.quality == maxQual (v :: vs)) = true := by
          simp [hmax]
        rw [if_pos hc]
        simp only [firstMax]
        rw [List.find?_cons_of_pos
          (p := fun (x : VoiceInfo) => qualityOrder x.quality == maxQual (v :: vs)) _ hp]
      · have hlt : qualityOrder v.quality < qualityOrder w.quality := lt_of_not_le hc
        have hmax : maxQual (v :: vs) = maxQual vs := by
          rw [maxQual_cons]; omega
        have hvne : ¬ ((qualityOrder v.quality == maxQual (v :: vs)) = true) := by
          simp only [beq_iff_eq, hmax]
          omega
        rw [if_neg hc]
        simp only [firstMax]
        rw [List.find?_cons_of_neg
          (p := fun (x : VoiceInfo) => qualityOrder x.quality == maxQual (v :: vs)) _ hvne]
        simp only [hmax]
        exact hfm.symm

/-! ## Parsing the decimal string of a natural number -/

lemma digitChar_spec {d : Nat} (h : d < 10) :
    (digitChar d).isDigit = true ∧ (digitChar d).toNat = 48 + d := by
  interval_cases d <;> exact ⟨rfl, rfl⟩

lemma natDigitsAux_ne_nil {fuel n : Nat} (h : n < fuel) :
    natDigitsAux fuel n ≠ [] := by
  cases fuel with
  | zero => omega
  | succ f =>
    by_cases hn : n < 10
    · simp [natDigitsAux, hn]
    · simp [natDigitsAux, hn]

lemma natDigitsAux_digits {fuel n : Nat} (h : n < fuel) :
    ∀ c ∈ natDigitsAux fuel n, c.isDigit = true := by
  induction fuel generalizing n with
  | zero => omega
  | succ f ih =>
    intro c hc
    by_cases hn : n < 10
    · simp only [natDigitsAux, if_pos hn, List.mem_singleton] at hc
      exact hc ▸ (digitChar_spec hn).1
    · simp only [natDigitsAux, if_neg hn, List.mem_append, List.mem_singleton] at hc
      rcases hc with hc | hc
      · exact ih (by omega : n / 10 < f) c hc
      · exact hc ▸ (digitChar_spec (Nat.mod_lt n (by omega))).1

lemma digitsVal_natDigitsAux {fuel n : Nat} (h : n < fuel) :
    digitsVal (natDigitsAux fuel n) = n := by
  induction fuel generalizing n with
  | zero => omega
  | succ f ih =>
    by_cases hn : n < 10
    · simp [natDigitsAux, hn, digitsVal, (digitChar_spec hn).2]
    · have hdiv : n / 10 < f := by omega
      simp only [natDigitsAux, if_neg hn, digitsVal, List.foldl_append]
      have hrec : digitsVal (natDigitsAux f (n / 10)) = n / 10 := ih hdiv
      simp only [digitsVal] at hrec
      rw [hrec, List.foldl_cons, List.foldl_nil,
        (digitChar_spec (Nat.mod_lt n (by omega))).2]
      omega

lemma takeWhile_of_all {p : Char → Bool} :
    ∀ {l : List Char}, (∀ c ∈ l, p c = true) → l.takeWhile p = l := by
  intro l
  induction l with
  | nil => intro _; rfl
  | cons c rest ih =>
    intro h
    rw [List.takeWhile_cons, if_pos (h c (List.mem_cons_self c rest)),
      ih (fun x hx => h x (List.mem_cons_of_mem c hx))]

lemma isDigit_not_whitespace {c : Char} (h : c.isDigit = true) :
    isWhitespaceJS c = false := by
  have hv : 48 ≤ c.toNat ∧ c.toNat ≤ 57 := by
    simp [Char.isDigit] at h
    exact ⟨h.1, h.2⟩
  have h32 : ¬ (c == ' ') = true := by
    intro hc
    have : c = ' ' := by simpa using hc
    subst this
    simp at hv
  have h9 : ¬ (c == '\t') = true := by
    intro hc
    have : c = '\t' := by simpa using hc
    subst this
    simp at hv
  have h10 : ¬ (c == '\n') = true := by
    intro hc
    have : c = '\n' := by simpa using hc
    subst this
    simp at hv
  have h13 : ¬ (c == '\r') = true := by
    intro hc
    have : c = '\r' := by simpa using hc
    subst this
    simp at hv
  simp only [isWhitespaceJS, Bool.or_eq_false_iff]
  exact ⟨⟨⟨Bool.eq_false_iff.mpr (fun hh => h32 hh),
    Bool.eq_false_iff.mpr (fun hh => h9 hh)⟩,
    Bool.eq_false_iff.mpr (fun hh => h10 hh)⟩,
    Bool.eq_false_iff.mpr (fun hh => h13 hh)⟩

lemma isDigit_not_sign {c : Char} (h : c.isDigit = true) : c ≠ '-' ∧ c ≠ '+' := by
  constructor
  · intro hc; subst hc; exact absurd h (by decide)
  · intro hc; subst hc; exact absurd h (by decide)

/-- The decimal rendering of `n` parses back to `n`: `parseInt(str(n), 10) = n`. -/
lemma parseIntJS_strNat (n : Nat) : parseIntJS (strNat n) = some (n : Int) := by
  have hfuel : n < n + 1 := Nat.lt_succ_self n
  have hdig := natDigitsAux_digits hfuel
  have hne := natDigitsAux_ne_nil hfuel
  rcases hl : natDigitsAux (n + 1) n with _ | ⟨c, rest⟩
  · exact absurd hl hne
  · have hc : c.isDigit = true := hdig c (by rw [hl]; exact List.mem_cons_self c rest)
    have hrest : ∀ x ∈ rest, x.isDigit = true := fun x hx =>
      hdig x (by rw [hl]; exact List.mem_cons_of_mem c hx)
    have htl : (strNat n).toList = c :: rest := by
      simp [strNat, hl]
    have hdw : (strNat n).toList.dropWhile isWhitespaceJS = c :: rest := by
      rw [htl, List.dropWhile_cons, isDigit_not_whitespace hc]
      simp
    rcases isDigit_not_sign hc with ⟨hminus, hplus⟩
    simp only [parseIntJS, hdw, if_neg hminus, if_neg hplus]
    have htake : (c :: rest).takeWhile Char.isDigit = c :: rest :=
      takeWhile_of_all (by
        intro x hx
        rcases List.mem_cons.mp hx with rfl | hx
        · exact hc
        · exact hrest x hx)
    simp only [htake]
    have hval : digitsVal (c :: rest) = n := by
      rw [← hl]; exact digitsVal_natDigitsAux hfuel
    have hnonempty : (c :: rest).isEmpty = false := rfl
    simp [hnonempty, hval]

/-! ## Cleanup behaviour of the downloader -/

/-- In every reachable outcome of `request`, the destination file is gone
exactly when the failure was a network (`error`-event) failure: that is the
only site that calls `fsSync.unlink`. -/
lemma requestAux_destExists (server : String → FetchEvent) :
    ∀ (hops : Nat) (url : String),
      (requestAux server hops url).destExists = false ↔
        (requestAux server hops url).result = .error .networkError := by
  intro hops
  induction hops with
  | zero => intro url; simp [requestAux]
  | succ h ih =>
    intro url
    rw [requestAux]
    cases hsv : server url with
    | netErr => simp
    | response code loc =>
      by_cases hred : isRedirectStatus code
      · cases loc with
        | some location => simp only [hred, if_true]; exact ih (nextUrl location url)
        | none => simp [hred]
      · by_cases h200 : code = 200
        · subst h200; simp [isRedirectStatus]
        · simp [hred, h200]

/-- The redirect-chain test server: URLs `chainUrl 0 … chainUrl (n-1)` answer
with a 302 redirect to the next URL in the chain (an absolute location), the
final URL `chainUrl n` answers 200, anything else 404. -/
def chainUrl (k : Nat) : String := "http://c/" ++ strNat k

/-- See `chainUrl`: a server whose responses form a redirect chain of `n`
hops ending in a 200. -/
def chainServer (n : Nat) (url : String) : FetchEvent :=
  match (List.range n).find? (fun k => chainUrl k == url) with
  | some k => .response 302 (some (chainUrl (k + 1)))
  | none => if chainUrl n == url then .response 200 none else .response 404 none

/-! ## Claim C1 -/

/-- C1, counterexample: a fetch answered by a plain HTTP 404 fails, yet the
destination file still exists afterwards — the non-success-status `reject`
path of `downloadFile` never unlinks the destination, contradicting the
claim that after any failed fetch the destination path does not exist. -/
theorem downloadFile_http_failure_keeps_dest_cex :
    (downloadFile (fun _ => .response 404 none) "http://host/f").result
        = .error (.httpFailure 404) ∧
    (downloadFile (fun _ => .response 404 none) "http://host/f").destExists = true :=
  ⟨rfl, rfl⟩

/-- C1 (amended): the destination file is deleted before the error propagates
only for network (`error`-event) failures; a failure from a non-success HTTP
status, from the redirect limit, or from a redirect without a `Location`
header propagates with the destination file still in place. -/
theorem downloadFile_cleanup_only_on_network_error
    (server : String → FetchEvent) (url : String) :
    ((downloadFile server url).result = .error .networkError →
      (downloadFile server url).destExists = false) ∧
    (∀ e, (downloadFile server url).result = .error e → e ≠ .networkError →
      (downloadFile server url).destExists = true) := by
  constructor
  · intro h
    exact (requestAux_destExists server 6 url).mpr h
  · intro e he hne
    by_contra hf
    have hfalse : (downloadFile server url).destExists = false :=
      Bool.eq_false_iff.mpr hf
    have h2 : (downloadFile server url).result = Except.error DownloadError.networkError :=
      (requestAux_destExists server 6 url).mp hfalse
    rw [he] at h2
    exact hne (by injection h2)

/-- C1, witness: a pure network failure does delete the destination. -/
theorem downloadFile_cleanup_only_on_network_error_witness :
    (downloadFile (fun _ => .netErr) "http://host/f").destExists = false :=
  (downloadFile_cleanup_only_on_network_error (fun _ => .netErr) "http://host/f").1 rfl

/-! ## Claim C2 -/

/-- C2: a redirect chain of at most 5 hops ending in a 200 succeeds, a chain
of 6 redirect hops fails with the too-many-redirects error, and on a relative
`Location` (not starting with "http") the next request goes to that location
resolved against the current URL. -/
theorem downloadFile_redirect_budget :
    (∀ n, n ≤ 5 → (downloadFile (chainServer n) (chainUrl 0)).result = .ok ()) ∧
    (downloadFile (chainServer 6) (chainUrl 0)).result = .error .tooManyRedirects ∧
    (∀ (server : String → FetchEvent) (url : String) (hops code : Nat) (loc : String),
      isRedirectStatus code = true →
      server url = .response code (some loc) →
      startsWithJS loc "http" = false →
      requestAux server (hops + 1) url = requestAux server hops (urlResolve loc url)) := by
  refine ⟨?_, rfl, ?_⟩
  · intro n hn
    have hcases : n = 0 ∨ n = 1 ∨ n = 2 ∨ n = 3 ∨ n = 4 ∨ n = 5 := by omega
    rcases hcases with rfl | rfl | rfl | rfl | rfl | rfl <;> rfl
  · intro server url hops code loc hred hsv hloc
    rw [requestAux, hsv]
    simp [hred, nextUrl, hloc]

/-- C2, witness: the 3-hop chain instance of the budget theorem. -/
theorem downloadFile_redirect_budget_witness :
    (downloadFile (chainServer 3) (chainUrl 0)).result = .ok () :=
  downloadFile_redirect_budget.1 3 (by omega)

/-! ## Claim C7 -/

/-- C7: a failed read (missing or unreadable file) and a failed parse
(invalid JSON) both yield the default state, whose only populated field is
the current schema version "1.0.0"; `loadConfig` is total, so no error is
ever raised. -/
theorem loadConfig_failure_yields_default (o : ConfigReadOutcome)
    (h : o = .readFailed ∨ o = .parseFailed) :
    loadConfig o = { version := "1.0.0", selectedVoice := none, piperBinary := none } := by
  rcases h with rfl | rfl <;> rfl

/-- C7, witness: the missing-file case. -/
theorem loadConfig_failure_yields_default_witness :
    loadConfig .readFailed
      = { version := "1.0.0", selectedVoice := none, piperBinary := none } :=
  loadConfig_failure_yields_default .readFailed (Or.inl rfl)

/-! ## Claim C8 -/

/-- C8: when the selected voice is not cached and its model download fails,
`changeVoice` raises without touching anything: the returned manager state —
in particular the persisted configuration and its selected-voice record — is
exactly the input state, and the call reports an error.  The in-memory
selection is never overwritten and no flush happens before the error. -/
theorem changeVoice_download_failure_preserves_state
    (st : ManagerState) (identifier : String) (voices : List VoiceInfo)
    (dirFiles : List String) (msg : String) :
    (changeVoice st identifier voices false (.error msg) dirFiles).2 = st ∧
    ∃ e, (changeVoice st identifier voices false (.error msg) dirFiles).1
          = Except.error e := by
  rw [changeVoice]
  split
  · exact ⟨rfl, _, rfl⟩
  · split
    · exact ⟨rfl, _, rfl⟩
    · exact ⟨rfl, _, rfl⟩

/-! ## The voice-matching claims -/

/-- The numeric-index stage: an identifier parsing to an in-range `n` returns
`catalog[n-1]` directly, regardless of the identifier's trailing text and of
what any later stage would match. -/
lemma matchVoice_numeric {identifier : String} {voices : List VoiceInfo} {n : Int}
    (hp : parseIntJS identifier = some n) (h1 : 1 ≤ n)
    (h2 : n ≤ (voices.length : Int)) :
    matchVoice identifier voices = voices.get? (n - 1).toNat := by
  have hne : voices.isEmpty = false := by
    cases voices with
    | nil => simp at h2; omega
    | cons v vs => rfl
  rw [matchVoice, hp]
  simp only [hne, Bool.false_eq_true, if_false]
  rw [if_pos ⟨h1, h2⟩]

/-- When the numeric stage does not fire, `matchVoice` runs the key and
substring stages. -/
lemma matchVoice_eq_keyStages {identifier : String} {voices : List VoiceInfo}
    (hne : voices.isEmpty = false)
    (hnum : ∀ n : Int, parseIntJS identifier = some n →
      ¬ (1 ≤ n ∧ n ≤ (voices.length : Int))) :
    matchVoice identifier voices = matchVoiceKeyStages identifier voices := by
  cases hp : parseIntJS identifier with
  | none => rw [matchVoice, hp]; simp [hne]
  | some n =>
    rw [matchVoice, hp]
    simp only [hne, Bool.false_eq_true, if_false]
    rw [if_neg (hnum n hp)]

/-- `find?` on the exact-key predicate returns the descriptor itself when the
catalog's keys are pairwise distinct. -/
lemma find?_key_self {voices : List VoiceInfo} {v : VoiceInfo}
    (hmem : v ∈ voices) (hkeys : (voices.map VoiceInfo.key).Nodup) :
    voices.find? (fun w => w.key == v.key) = some v := by
  induction voices with
  | nil => cases hmem
  | cons a rest ih =>
    by_cases ha : a.key = v.key
    · have hav : a = v := by
        rcases List.mem_cons.mp hmem with rfl | hv
        · rfl
        · exfalso
          have hmap : v.key ∈ rest.map VoiceInfo.key := List.mem_map_of_mem _ hv
          rw [← ha] at hmap
          rw [List.map_cons, List.nodup_cons] at hkeys
          exact hkeys.1 hmap
      subst hav
      exact List.find?_cons_of_pos _ (by simp)
    · have hvr : v ∈ rest := by
        rcases List.mem_cons.mp hmem with rfl | hv
        · exact absurd rfl ha
        · exact hv
      rw [List.map_cons, List.nodup_cons] at hkeys
      rw [List.find?_cons_of_neg _ (by simp [ha]), ih hvr hkeys.2]

/-- A catalog entry whose key itself begins with a decimal digit, so the
numeric stage can capture identifiers that later stages would match. -/
def numericKeyVoice : VoiceInfo :=
  { key := "1", name := "one", language := defaultLanguage,
    quality := "high", files := [] }

/-- An unremarkable catalog entry. -/
def plainVoice : VoiceInfo :=
  { key := "en_US-alpha-low", name := "alpha", language := defaultLanguage,
    quality := "low", files := [] }

/-- A catalog entry whose key contains the digits "99". -/
def amy99Voice : VoiceInfo :=
  { key := "en_US-amy99-high", name := "amy99", language := defaultLanguage,
    quality := "high", files := [] }

/-- A catalog entry whose key is literally "2abc". -/
def keyed2abcVoice : VoiceInfo :=
  { key := "2abc", name := "two", language := defaultLanguage,
    quality := "high", files := [] }

/-- Another unremarkable catalog entry. -/
def betaVoice : VoiceInfo :=
  { key := "en_US-beta-low", name := "beta", language := defaultLanguage,
    quality := "low", files := [] }

/-! ## Claim C3 -/

/-- C3, counterexample: `resolve(str(99))` on the one-element catalog
`[en_US-amy99-high]` does not fail with voice-not-found although 99 is out of
the index range 1..1 — the identifier falls through to the substring stage
and "99" occurs inside the key. -/
theorem matchVoice_out_of_range_cex :
    matchVoice (strNat 99) [amy99Voice] = some amy99Voice ∧
    matchVoice (strNat 99) [amy99Voice] ≠ none := by
  exact ⟨rfl, by simp [show matchVoice (strNat 99) [amy99Voice] = some amy99Voice from rfl]⟩

/-- C3 (amended): for `1 ≤ n ≤ |catalog|`, resolving `str(n)` returns
`catalog[n-1]`; for `n` outside that range the numeric stage does not fire
and resolution continues with the later stages, so it fails with
voice-not-found exactly when `str(n)` also matches no key, no locale-prefixed
key, and no case-insensitive substring of a key or display name. -/
theorem matchVoice_numeric_index_range :
    (∀ (voices : List VoiceInfo) (n : Nat), 1 ≤ n → n ≤ voices.length →
      matchVoice (strNat n) voices = voices.get? (n - 1)) ∧
    (∀ (voices : List VoiceInfo) (n : Nat), (n < 1 ∨ voices.length < n) →
      voices.find? (fun v => v.key == strNat n) = none →
      voices.find? (fun v => v.key == "en_US-" ++ strNat n) = none →
      substrMatches (strNat n) voices = [] →
      matchVoice (strNat n) voices = none) := by
  constructor
  · intro voices n h1 h2
    have hcast1 : (1 : Int) ≤ (n : Int) := by exact_mod_cast h1
    have hcast2 : (n : Int) ≤ (voices.length : Int) := by exact_mod_cast h2
    have hmain := matchVoice_numeric (parseIntJS_strNat n) hcast1 hcast2
    have hidx : ((n : Int) - 1).toNat = n - 1 := by omega
    rw [hmain, hidx]
  · intro voices n hout hk hpre hsub
    cases voices with
    | nil => rfl
    | cons v vs =>
      have hie : (v :: vs).isEmpty = false := rfl
      have hnum : ∀ m : Int, parseIntJS (strNat n) = some m →
          ¬ (1 ≤ m ∧ m ≤ ((v :: vs).length : Int)) := by
        intro m hm
        rw [parseIntJS_strNat n] at hm
        have hmn : (n : Int) = m := by injection hm
        subst hmn
        rcases hout with h | h
        · intro hc; omega
        · intro hc
          have : ((v :: vs).length : Int) < (n : Int) := by exact_mod_cast h
          omega
      rw [matchVoice_eq_keyStages hie hnum]
      rw [matchVoiceKeyStages]
      rw [hk, hpre]
      simp [hsub]

/-- C3, witness: index 2 of a two-voice catalog is its second entry. -/
theorem matchVoice_numeric_index_range_witness :
    matchVoice (strNat 2) [amy99Voice, betaVoice]
      = [amy99Voice, betaVoice].get? (2 - 1) :=
  matchVoice_numeric_index_range.1 [amy99Voice, betaVoice] 2 (by omega) (by decide)

/-! ## Claim C10 -/

/-- C10: an identifier whose leading characters parse as an in-range decimal
index resolves through the numeric stage even with trailing non-numeric text:
`parseInt("2abc", 10) = 2`, and against a catalog whose first entry has the
exact key "2abc", resolving "2abc" bypasses the exact-key stage and returns
the second entry. -/
theorem matchVoice_numeric_prefix_stage :
    (∀ (identifier : String) (voices : List VoiceInfo) (n : Int),
      parseIntJS identifier = some n → 1 ≤ n → n ≤ (voices.length : Int) →
      matchVoice identifier voices = voices.get? (n - 1).toNat) ∧
    parseIntJS "2abc" = some 2 ∧
    matchVoice "2abc" [keyed2abcVoice, betaVoice] = some betaVoice ∧
    keyed2abcVoice.key = "2abc" ∧ keyed2abcVoice ≠ betaVoice := by
  refine ⟨fun identifier voices n hp h1 h2 => matchVoice_numeric hp h1 h2,
    rfl, rfl, rfl, by decide⟩

/-- C10, witness: the "2abc" instance of the general numeric-stage rule. -/
theorem matchVoice_numeric_prefix_stage_witness :
    matchVoice "2abc" [keyed2abcVoice, betaVoice]
      = [keyed2abcVoice, betaVoice].get? (((2 : Int) - 1).toNat) :=
  matchVoice_numeric_prefix_stage.1 "2abc" [keyed2abcVoice, betaVoice] 2 rfl
    (by omega) (by simp)

/-! ## Claim C4 -/

/-- The "amy" catalog of the spec's worked example. -/
def amyHighVoice : VoiceInfo :=
  { key := "en_US-amy-high", name := "amy", language := defaultLanguage,
    quality := "high", files := [] }

/-- See `amyHighVoice`. -/
def amyMediumVoice : VoiceInfo :=
  { key := "en_US-amy-medium", name := "amy", language := defaultLanguage,
    quality := "medium", files := [] }

/-- C4: once an identifier reaches the substring stage of `matchVoice` on a
non-empty catalog, the result is `firstMax` of the substring candidates: the
first (original catalog order) candidate of maximal quality rank — i.e. every
case-insensitive key/display-name substring match is collected, an empty
candidate set fails with voice-not-found (`none`), and otherwise the
highest-quality candidate wins with ties broken by catalog order. -/
theorem matchVoice_substring_stage (identifier : String) (voices : List VoiceInfo)
    (hne : voices ≠ [])
    (hnum : ∀ n : Int, parseIntJS identifier = some n →
      ¬ (1 ≤ n ∧ n ≤ (voices.length : Int)))
    (hexact : voices.find? (fun v => v.key == identifier) = none)
    (hloc : voices.find? (fun v => v.key == "en_US-" ++ identifier) = none) :
    matchVoice identifier voices = firstMax (substrMatches identifier voices) := by
  have hie : voices.isEmpty = false := by
    cases voices with
    | nil => exact absurd rfl hne
    | cons v vs => rfl
  rw [matchVoice_eq_keyStages hie hnum, matchVoiceKeyStages, hexact, hloc]
  by_cases hpm : substrMatches identifier voices = []
  · simp [hpm, firstMax]
  · have hcond : ¬ ((substrMatches identifier voices).isEmpty = true) := by
      simpa [List.isEmpty_iff] using hpm
    simp only [if_neg hcond]
    exact head?_sortDesc _

/-- C4, witness: the spec's example — `resolve("amy")` against
`[amy-high, amy-medium]` returns the high entry. -/
theorem matchVoice_substring_stage_witness :
    matchVoice "amy" [amyHighVoice, amyMediumVoice] = some amyHighVoice := by
  have h := matchVoice_substring_stage "amy" [amyHighVoice, amyMediumVoice]
    (by simp)
    (fun n hp => by
      rw [show parseIntJS "amy" = (none : Option Int) from rfl] at hp
      exact Option.noConfusion hp)
    rfl rfl
  rw [h]
  rfl

/-! ## Claim C5 -/

/-- C5, counterexample: `numericKeyVoice` (key "1") is in the catalog
`[plainVoice, numericKeyVoice]`, yet resolving its own key "1" returns
`plainVoice` — the numeric-index stage runs first and skips the exact-key
stage, so resolution by own key does not return the descriptor. -/
theorem matchVoice_exact_key_cex :
    numericKeyVoice ∈ [plainVoice, numericKeyVoice] ∧
    matchVoice numericKeyVoice.key [plainVoice, numericKeyVoice] = some plainVoice ∧
    plainVoice ≠ numericKeyVoice := by
  refine ⟨by simp, rfl, by decide⟩

/-- C5 (amended): resolving a descriptor's own key returns that descriptor
for every catalog whose keys are pairwise distinct and whose key is not
captured by the earlier numeric-index stage (the key does not parse as an
integer in 1..|catalog|) — under those conditions the exact-key stage is
reached and wins. -/
theorem matchVoice_own_key_resolves (voices : List VoiceInfo) (v : VoiceInfo)
    (hmem : v ∈ voices)
    (hkeys : (voices.map VoiceInfo.key).Nodup)
    (hnum : ∀ n : Int, parseIntJS v.key = some n →
      ¬ (1 ≤ n ∧ n ≤ (voices.length : Int))) :
    matchVoice v.key voices = some v := by
  have hie : voices.isEmpty = false := by
    cases voices with
    | nil => cases hmem
    | cons w ws => rfl
  rw [matchVoice_eq_keyStages hie hnum, matchVoiceKeyStages,
    find?_key_self hmem hkeys]

/-- C5, witness: a realistic locale-prefixed catalog where each entry is
found by its own key. -/
theorem matchVoice_own_key_resolves_witness :
    matchVoice amyMediumVoice.key [amyHighVoice, amyMediumVoice]
      = some amyMediumVoice := by
  have h := matchVoice_own_key_resolves [amyHighVoice, amyMediumVoice] amyMediumVoice
    (by simp)
    (by decide)
    (fun n hp => by
      rw [show parseIntJS amyMediumVoice.key = (none : Option Int) from rfl] at hp
      exact Option.noConfusion hp)
  exact h

/-! ## Claim C6 -/

/-- A small raw catalog document exercising locale filtering, defaulting and
an unknown quality tier. -/
def demoEntries : List (String × RawVoiceData) :=
  [("en_US-a-medium", { quality := some "medium" }),
   ("de_DE-x-high", { quality := some "high" }),
   ("en_US-b-high", { quality := some "high" }),
   ("en_US-c-ultra", { quality := some "ultra" })]

/-- C6: for every raw catalog document, the voice list produced by
`fetchAvailableVoices` is sorted non-increasing in quality rank with the
rank mapping high = 3, medium = 2, low = 1, anything else = 0, and it is
stable: restricted to any single rank the output lists exactly the voices of
that rank in their original catalog-document order. -/
theorem fetchAvailableVoices_sorted_stable (entries : List (String × RawVoiceData)) :
    (fetchAvailableVoices entries).Pairwise
      (fun a b => qualityOrder b.quality ≤ qualityOrder a.quality) ∧
    (∀ r : Nat, (fetchAvailableVoices entries).filter
        (fun v => qualityOrder v.quality == r)
      = (parseVoices entries).filter (fun v => qualityOrder v.quality == r)) ∧
    qualityOrder "high" = 3 ∧ qualityOrder "medium" = 2 ∧ qualityOrder "low" = 1 ∧
    (∀ q : String, q ≠ "high" → q ≠ "medium" → q ≠ "low" → qualityOrder q = 0) := by
  refine ⟨pairwise_sortDesc _, fun r => filter_sortDesc r _, rfl, rfl, rfl, ?_⟩
  intro q h1 h2 h3
  simp [qualityOrder, h1, h2, h3]

/-- C6, witness: the demo document instance, plus the unknown-tier rank. -/
theorem fetchAvailableVoices_sorted_stable_witness :
    (fetchAvailableVoices demoEntries).Pairwise
      (fun a b => qualityOrder b.quality ≤ qualityOrder a.quality) ∧
    qualityOrder "ultra" = 0 :=
  ⟨(fetchAvailableVoices_sorted_stable demoEntries).1,
   (fetchAvailableVoices_sorted_stable demoEntries).2.2.2.2.2 "ultra"
     (by decide) (by decide) (by decide)⟩

/-! ## Claim C9 -/

lemma hasSubL_nil_left : ∀ l : List Char, hasSubL [] l = true := by
  intro l
  cases l with
  | nil => rfl
  | cons c rest => simp [hasSubL, leadsWith]

lemma leadsWith_append (xs ys : List Char) : leadsWith xs (xs ++ ys) = true := by
  induction xs with
  | nil => rfl
  | cons a as ih => simp [leadsWith, ih]

lemma leadsWith_iff_append {pat : List Char} :
    ∀ {l : List Char}, leadsWith pat l = true ↔ ∃ t, l = pat ++ t := by
  induction pat with
  | nil =>
    intro l
    simp [leadsWith]
  | cons a as ih =>
    intro l
    cases l with
    | nil => simp [leadsWith]
    | cons b bs =>
      rw [leadsWith]
      simp only [Bool.and_eq_true, beq_iff_eq, ih]
      constructor
      · rintro ⟨rfl, t, rfl⟩
        exact ⟨t, rfl⟩
      · rintro ⟨t, ht⟩
        injection ht with h1 h2
        exact ⟨h1.symm, t, h2⟩

/-- If a string decomposes as `ds ++ pat` and `pat` occurs nowhere in the
string but at that final position (no occurrence inside `dropLast`), then the
first-occurrence replacement rewrites exactly the trailing `pat`. -/
lemma replaceFirstAux_suffix (pat rep : List Char) :
    ∀ (ds cs : List Char), cs = ds ++ pat →
      hasSubL pat cs.dropLast = false →
      replaceFirstAux pat rep cs = ds ++ rep := by
  intro ds
  induction ds with
  | nil =>
    intro cs hcs _
    rw [hcs]
    simp only [List.nil_append]
    cases hp : pat with
    | nil => simp [replaceFirstAux]
    | cons p ps =>
      have hl : leadsWith (p :: ps) (p :: ps) = true := by
        have h := leadsWith_append (p :: ps) []
        rwa [List.append_nil] at h
      rw [replaceFirstAux]
      simp [hl, List.drop_length]
  | cons d dtl ih =>
    intro cs hcs hno
    subst hcs
    rw [List.cons_append] at hno ⊢
    have hpne : pat ≠ [] := by
      intro h
      rw [h, hasSubL_nil_left] at hno
      exact Bool.noConfusion hno
    have htne : dtl ++ pat ≠ [] := fun h => hpne (List.append_eq_nil.mp h).2
    have hdl : (d :: (dtl ++ pat)).dropLast = d :: (dtl ++ pat).dropLast :=
      List.dropLast_cons_of_ne_nil htne
    rw [hdl, hasSubL, Bool.or_eq_false_iff] at hno
    have hnlw := hno.1
    have hno2 := hno.2
    have hmain : ¬ leadsWith pat (d :: (dtl ++ pat)) = true := by
      intro hcon
      rcases leadsWith_iff_append.mp hcon with ⟨u, hu⟩
      have hune : u ≠ [] := by
        intro h
        subst h
        rw [List.append_nil] at hu
        have hlen := congrArg List.length hu
        simp at hlen
        omega
      have h1 : (d :: (dtl ++ pat)).dropLast = pat ++ u.dropLast := by
        rw [hu, List.dropLast_append_of_ne_nil pat hune]
      rw [hdl] at h1
      have h2 : leadsWith pat (d :: (dtl ++ pat).dropLast) = true := by
        rw [h1]; exact leadsWith_append _ _
      rw [h2] at hnlw
      exact Bool.noConfusion hnlw
    rw [replaceFirstAux, if_neg hmain, ih (dtl ++ pat) rfl hno2]
    rfl


/-- Manager state for the C9 counterexample run: initialized, fresh config,
voices stored under "/v". -/
def cexState : ManagerState :=
  { config := some { version := "1.0.0" }, persistedConfig := none,
    voiceModelPath := none, isInitialized := true, voicesDir := "/v" }

/-- The voice selected in the C9 counterexample run. -/
def cexVoice : VoiceInfo :=
  { key := "en_US-test", name := "test", language := defaultLanguage,
    quality := "high", files := [] }

/-- C9, counterexample: a voice change whose cached model file name contains
".onnx" twice.  The model path is "/v/en_US-test/m.onnx.v2.onnx"; the JS
`replace` used by the source rewrites the FIRST ".onnx", producing
".../m.onnx.json.v2.onnx", which is not the claimed substitution of the
TRAILING extension ".../m.onnx.v2.onnx.json". -/
theorem changeVoice_configPath_cex :
    (changeVoice cexState "en_US-test" [cexVoice] true (Except.ok "unused")
        ["m.onnx.v2.onnx"]).2.config.bind Config.selectedVoice
      = some (mkSelectedVoice cexVoice "/v/en_US-test/m.onnx.v2.onnx") ∧
    (mkSelectedVoice cexVoice "/v/en_US-test/m.onnx.v2.onnx").modelPath
      = "/v/en_US-test/m.onnx.v2.onnx" ∧
    (mkSelectedVoice cexVoice "/v/en_US-test/m.onnx.v2.onnx").configPath
      = "/v/en_US-test/m.onnx.json.v2.onnx" ∧
    (mkSelectedVoice cexVoice "/v/en_US-test/m.onnx.v2.onnx").configPath
      ≠ "/v/en_US-test/m.onnx.v2.onnx.json" := by
  refine ⟨rfl, rfl, rfl, by decide⟩

/-- C9 (amended): every selected-voice record written by voice selection or
voice change derives its companion config path by replacing the FIRST
occurrence of ".onnx" in the model path with ".onnx.json"; this coincides
with the claimed trailing-suffix substitution exactly when ".onnx" occurs
nowhere in the model path except as its trailing extension. -/
theorem selectedVoice_configPath_derivation :
    (∀ (v : VoiceInfo) (modelPath : String),
      (mkSelectedVoice v modelPath).configPath
        = replaceFirst modelPath ".onnx" ".onnx.json") ∧
    (∀ (s : String) (ds : List Char),
      s.toList = ds ++ (".onnx").toList →
      hasSubL (".onnx").toList s.toList.dropLast = false →
      replaceFirst s ".onnx" ".onnx.json" = String.mk (ds ++ (".onnx.json").toList)) := by
  refine ⟨fun v mp => rfl, ?_⟩
  intro s ds hdecomp hno
  rw [replaceFirst,
    replaceFirstAux_suffix (".onnx").toList (".onnx.json").toList ds s.toList hdecomp hno]

/-- C9, witness: on the well-formed model path "/v/m.onnx", where ".onnx"
occurs only as the trailing extension, the derivation is exactly the
trailing-suffix substitution. -/
theorem selectedVoice_configPath_derivation_witness :
    replaceFirst "/v/m.onnx" ".onnx" ".onnx.json"
      = String.mk (("/v/m").toList ++ (".onnx.json").toList) :=
  selectedVoice_configPath_derivation.2 "/v/m.onnx" ("/v/m").toList rfl rfl

end SpeakMcp
